import Mathlib

/-!
Shallow embedding of the pubgrub-debian resolver sources
(`debian_version.rs`, `index.rs`, `debian_deps.rs`, `parse.rs`)
and proofs about the embedded definitions.

Strings are embedded as Lean `String` / `List Char`; Rust `u64` values as
`Nat` with explicit overflow handling where the source can overflow.
-/

/-- Comparison of natural numbers, mirroring Rust's integer `cmp`. -/
def natCmp (m n : Nat) : Ordering :=
  if m < n then .lt else if m = n then .eq else .gt

/-- Embedding of Rust `u64::from_str` composed with `unwrap_or(0)`:
an optional leading `+`, then one or more ASCII digits, value below `2^64`;
anything else (including overflow) yields the default `0`. -/
def parseU64 (cs : List Char) : Nat :=
  let digits := match cs with
    | '+' :: rest => rest
    | _ => cs
  if digits ≠ [] ∧ digits.all Char.isDigit then
    let v := digits.foldl (fun acc c => 10 * acc + (c.toNat - 48)) 0
    if v < 18446744073709551616 then v else 0
  else 0

/-- Embedding of Rust `str::trim`: drop whitespace from both ends. -/
def trimChars (s : List Char) : List Char :=
  ((s.dropWhile Char.isWhitespace).reverse.dropWhile Char.isWhitespace).reverse

/-- Embedding of `DebianVersion` (a wrapper around the raw version string). -/
structure DebianVersion where
  str : String
deriving DecidableEq, Repr

/-- Embedding of `DebianVersion::split`: split the trimmed version string into
(epoch, upstream, debian_revision).  The epoch is the part before the first
`:` parsed as a `u64` (default 0 when there is no `:`); the revision is the
part after the last `-` of the remainder (default `"0"` when there is no `-`). -/
def splitChars (s0 : List Char) : Nat × List Char × List Char :=
  let s := trimChars s0
  let er : Nat × List Char :=
    if ':' ∈ s then
      (parseU64 (s.takeWhile (fun c => c ≠ ':')), (s.dropWhile (fun c => c ≠ ':')).drop 1)
    else (0, s)
  let rest := er.2
  let ud : List Char × List Char :=
    if '-' ∈ rest then
      ((((rest.reverse).dropWhile (fun c => c ≠ '-')).drop 1).reverse,
        ((rest.reverse).takeWhile (fun c => c ≠ '-')).reverse)
    else (rest, ['0'])
  (er.1, ud.1, ud.2)

/-- Embedding of `DebianVersion::split` on the wrapped string. -/
def DebianVersion.split (v : DebianVersion) : Nat × List Char × List Char :=
  splitChars v.str.data

/-- Embedding of the `Token` enum: a numeric token or a non-numeric run. -/
inductive Tok where
  | num : Nat → Tok
  | str : List Char → Tok
deriving DecidableEq, Repr

/-- Flushing the current run of the tokenizer into a token
(digit runs parse as `u64`, saturating to 0 on overflow, like the source). -/
def flushTok (current : List Char) (isDig : Bool) : Tok :=
  if isDig then .num (parseU64 current) else .str current

/-- Main loop of `tokenize`: `current` is the run being accumulated and
`isDig` records whether it is a digit run. -/
def tokenizeRun : List Char → List Char → Bool → List Tok
  | [], current, isDig => [flushTok current isDig]
  | c :: rest, current, isDig =>
    if c.isDigit = isDig then tokenizeRun rest (current ++ [c]) isDig
    else flushTok current isDig :: tokenizeRun rest [c] c.isDigit

/-- Tokenizer state before the first character has been seen. -/
def tokenizeAux : List Char → List Tok
  | [] => []
  | c :: rest => tokenizeRun rest [c] c.isDigit

/-- Embedding of `tokenize`: alternating non-digit and digit runs, with an
empty leading string token when the string starts with a digit. -/
def tokenize (version : List Char) : List Tok :=
  (match version with
    | c :: _ => if c.isDigit then [Tok.str []] else []
    | [] => []) ++ tokenizeAux version

/-- One step of `compare_str_token` on a pair of characters (`continue` in
the source loop is represented by the `Ordering.eq` result). -/
def charCmp (c1 c2 : Char) : Ordering :=
  if c1 = c2 then .eq
  else if c1 = '~' ∨ c2 = '~' then
    (if c1 = '~' ∧ c2 = '~' then .eq else if c1 = '~' then .lt else .gt)
  else if c1.isAlpha ≠ c2.isAlpha then (if c1.isAlpha then .lt else .gt)
  else natCmp c1.toNat c2.toNat

/-- Embedding of `compare_str_token`: character-by-character comparison where
`~` sorts before everything (even the end of the string) and letters sort
before non-letters. -/
def cmpChars : List Char → List Char → Ordering
  | [], [] => .eq
  | [], c2 :: _ => if c2 = '~' then .gt else .lt
  | c1 :: _, [] => if c1 = '~' then .lt else .gt
  | c1 :: r1, c2 :: r2 =>
    match charCmp c1 c2 with
    | .eq => cmpChars r1 r2
    | o => o

/-- Embedding of `compare_tokens`. -/
def tokCmp : Tok → Tok → Ordering
  | .num n1, .num n2 => natCmp n1 n2
  | .str s1, .str s2 => cmpChars s1 s2
  | .num _, .str _ => .gt
  | .str _, .num _ => .lt

/-- Whether a character list starts with `~`. -/
def headTilde : List Char → Bool
  | [] => false
  | c :: _ => c = '~'

/-- Whether a missing token compared against `t` yields `Greater` for the
missing side: true exactly for string tokens starting with `~`. -/
def padGT : Tok → Bool
  | .str s => headTilde s
  | .num _ => false

/-- Positional comparison of token sequences as in `Ord for DebianVersion`:
when one sequence runs out, the first extra token decides (a `~`-prefixed
string token makes the shorter side greater, anything else smaller). -/
def tokListCmp : List Tok → List Tok → Ordering
  | [], [] => .eq
  | [], t :: _ => if padGT t then .gt else .lt
  | t :: _, [] => if padGT t then .lt else .gt
  | t :: ts, u :: us =>
    match tokCmp t u with
    | .eq => tokListCmp ts us
    | o => o

/-- Embedding of `Ord for DebianVersion` on raw character lists:
compare epochs numerically, then upstream token sequences, then revision
token sequences. -/
def vcmp (a b : List Char) : Ordering :=
  let s1 := splitChars a
  let s2 := splitChars b
  match natCmp s1.1 s2.1 with
  | .eq =>
    match tokListCmp (tokenize s1.2.1) (tokenize s2.2.1) with
    | .eq => tokListCmp (tokenize s1.2.2) (tokenize s2.2.2)
    | o => o
  | o => o

/-- Embedding of `DebianVersion::cmp`. -/
def DebianVersion.cmp (a b : DebianVersion) : Ordering :=
  vcmp a.str.data b.str.data

/-! ### Order-theoretic properties of the character comparison -/

/-- Rank of a character in the Debian character order: `~` first, then
letters, then all other characters. -/
def charRank (c : Char) : Nat :=
  if c = '~' then 0 else if c.isAlpha then 1 else 2

/-- Numeric key realizing the Debian character order: rank first, then
codepoint. -/
def charKey (c : Char) : Nat :=
  charRank c * 4294967296 + c.toNat

/-! ### Order-theoretic properties of the token-sequence comparison -/

/-- Whether the head token of a sequence is a `~`-prefixed string token. -/
def padGTHead : List Tok → Bool
  | [] => false
  | t :: _ => padGT t

/-! ### Order-theoretic properties of the version comparison -/

/-- Comparison key of a version string: epoch, upstream tokens, revision
tokens.  `vcmp` is the lexicographic comparison of these keys. -/
def vkey (a : List Char) : Nat × List Tok × List Tok :=
  ((splitChars a).1, tokenize (splitChars a).2.1, tokenize (splitChars a).2.2)

/-- Lexicographic comparison of version keys. -/
def keyCmp (k1 k2 : Nat × List Tok × List Tok) : Ordering :=
  match natCmp k1.1 k2.1 with
  | .eq =>
    match tokListCmp k1.2.1 k2.2.1 with
    | .eq => tokListCmp k1.2.2 k2.2.2
    | o => o
  | o => o

/-! ### Data model: version ranges, index, packages, parsed packages -/

/-- Bound of an interval of versions. -/
inductive VBound where
  | unbounded : VBound
  | included : DebianVersion → VBound
  | excluded : DebianVersion → VBound
deriving DecidableEq, Repr

/-- Modelled from the spec: the `VersionRange` type of §4.2 (the pubgrub
`Range` crate type, which is external to this repository) as a finite union
of intervals with inclusive/exclusive/absent bounds. -/
abbrev VersionRange := List (VBound × VBound)

/-- Modelled from the spec: the `full` range (§4.2), one unbounded segment. -/
def VersionRange.full : VersionRange := [(.unbounded, .unbounded)]

/-- Modelled from the spec: `singleton(v)` (§4.2), the one-point interval. -/
def VersionRange.singleton (v : DebianVersion) : VersionRange :=
  [(.included v, .included v)]

/-- Modelled from the spec: `higherOrEqual(v)` (§4.2), pubgrub `higher_than`. -/
def VersionRange.higher_than (v : DebianVersion) : VersionRange :=
  [(.included v, .unbounded)]

/-- Modelled from the spec: `strictlyHigher(v)` (§4.2). -/
def VersionRange.strictly_higher_than (v : DebianVersion) : VersionRange :=
  [(.excluded v, .unbounded)]

/-- Modelled from the spec: `lowerOrEqual(v)` (§4.2), pubgrub `lower_than`. -/
def VersionRange.lower_than (v : DebianVersion) : VersionRange :=
  [(.unbounded, .included v)]

/-- Modelled from the spec: `strictlyLower(v)` (§4.2). -/
def VersionRange.strictly_lower_than (v : DebianVersion) : VersionRange :=
  [(.unbounded, .excluded v)]

/-- Whether a version is above a lower interval bound (comparisons use the
`DebianVersion` order). -/
def VBound.startOk (b : VBound) (w : DebianVersion) : Bool :=
  match b with
  | .unbounded => true
  | .included v => v.cmp w ≠ .gt
  | .excluded v => v.cmp w = .lt

/-- Whether a version is below an upper interval bound. -/
def VBound.endOk (b : VBound) (w : DebianVersion) : Bool :=
  match b with
  | .unbounded => true
  | .included v => w.cmp v ≠ .gt
  | .excluded v => w.cmp v = .lt

/-- Modelled from the spec: range membership `contains(v)` (§4.2), tested
consistently with the comparator against each interval of the union. -/
def VersionRange.contains (r : VersionRange) (w : DebianVersion) : Bool :=
  r.any (fun seg => seg.1.startOk w && seg.2.endOk w)

/-- Embedding of `HashedRange` (`index.rs`): a range wrapper (the `Hash`
instance of the original only affects hash-map bucketing, not contents). -/
structure HashedRange where
  range : VersionRange
deriving DecidableEq, Repr

namespace Idx

/-- Embedding of `index::Alternative`: target package name plus range
(named apart from the library class of the same name). -/
structure Alternative where
  name : String
  range : HashedRange
deriving DecidableEq, Repr

/-- Embedding of `index::Dependency`: an ordered list of alternatives. -/
structure Dependency where
  alternatives : List Alternative
deriving DecidableEq, Repr

end Idx

/-- Embedding of `Index` (`index.rs`): per package name, a version-sorted
map from version to declared dependencies.  The `BTreeMap` is embedded as an
association list sorted in ascending `DebianVersion` order; the hash map of
package names as an association list keyed by string equality.  The two
debug `Cell<bool>` fields only control logging and are omitted. -/
structure Index where
  packages : List (String × List (DebianVersion × List Idx.Dependency))
deriving DecidableEq, Repr

/-- Embedding of `BTreeMap::insert` keyed by the `DebianVersion` order:
ordered insertion; on a comparison-equal key the stored key is kept and only
the value is replaced. -/
def btreeInsert (m : List (DebianVersion × List Idx.Dependency)) (v : DebianVersion)
    (deps : List Idx.Dependency) : List (DebianVersion × List Idx.Dependency) :=
  match m with
  | [] => [(v, deps)]
  | (k, d) :: rest =>
    match v.cmp k with
    | .lt => (v, deps) :: (k, d) :: rest
    | .eq => (k, deps) :: rest
    | .gt => (k, d) :: btreeInsert rest v deps

/-- Association-list lookup by name (the hash map `get`). -/
def pkgLookup {α : Type} : List (String × α) → String → Option α
  | [], _ => none
  | (n, a) :: rest, k => if n = k then some a else pkgLookup rest k

/-- Inner loop of `add_deps`: `entry(name).or_default().insert(version, deps)`. -/
def addDepsAux : List (String × List (DebianVersion × List Idx.Dependency)) →
    String → DebianVersion → List Idx.Dependency →
    List (String × List (DebianVersion × List Idx.Dependency))
  | [], name, v, deps => [(name, btreeInsert [] v deps)]
  | (n, vm) :: rest, name, v, deps =>
    if n = name then (n, btreeInsert vm v deps) :: rest
    else (n, vm) :: addDepsAux rest name v deps

/-- Embedding of `Index::new`. -/
def Index.new : Index := ⟨[]⟩

/-- Embedding of `Index::add_deps`. -/
def Index.add_deps (idx : Index) (name : String) (version : DebianVersion)
    (dependencies : List Idx.Dependency) : Index :=
  ⟨addDepsAux idx.packages name version dependencies⟩

/-- Embedding of `Index::available_versions`: the `BTreeMap` keys reversed
(newest first), or empty when the package name is unknown. -/
def Index.available_versions (idx : Index) (package : String) : List DebianVersion :=
  match pkgLookup idx.packages package with
  | none => []
  | some vm => (vm.map Prod.fst).reverse

/-- Embedding of `Package` (`debian_deps.rs`). -/
inductive Package where
  | root : List (Package × VersionRange) → Package
  | base : String → Package
  | proxy : Idx.Dependency → Package
deriving Repr

mutual

/-- Structural decidable equality for `Package` (matching the derived `Eq`
of the original; the nested occurrence under `List` requires a manual
definition). -/
def Package.decEq : (p q : Package) → Decidable (p = q)
  | .root xs, .root ys =>
    match pkgListDecEq xs ys with
    | isTrue h => isTrue (congrArg Package.root h)
    | isFalse h => isFalse (fun hh => h (by injection hh))
  | .root _, .base _ => isFalse (fun h => Package.noConfusion h)
  | .root _, .proxy _ => isFalse (fun h => Package.noConfusion h)
  | .base _, .root _ => isFalse (fun h => Package.noConfusion h)
  | .base a, .base b =>
    if h : a = b then isTrue (by rw [h]) else isFalse (fun hh => h (by injection hh))
  | .base _, .proxy _ => isFalse (fun h => Package.noConfusion h)
  | .proxy _, .root _ => isFalse (fun h => Package.noConfusion h)
  | .proxy _, .base _ => isFalse (fun h => Package.noConfusion h)
  | .proxy d, .proxy e =>
    if h : d = e then isTrue (by rw [h]) else isFalse (fun hh => h (by injection hh))

/-- Decidable equality for lists of root requirements. -/
def pkgListDecEq : (xs ys : List (Package × VersionRange)) → Decidable (xs = ys)
  | [], [] => isTrue rfl
  | [], _ :: _ => isFalse (fun h => List.noConfusion h)
  | _ :: _, [] => isFalse (fun h => List.noConfusion h)
  | (p, r) :: xs, (q, s) :: ys =>
    match Package.decEq p q with
    | isFalse h =>
      isFalse (fun hh => by
        injection hh with h1 h2
        exact h (congrArg Prod.fst h1))
    | isTrue h1 =>
      if h2 : r = s then
        match pkgListDecEq xs ys with
        | isTrue h3 => isTrue (by rw [h1, h2, h3])
        | isFalse h3 => isFalse (fun hh => by
            injection hh with hh1 hh2
            exact h3 hh2)
      else
        isFalse (fun hh => by
          injection hh with hh1 hh2
          exact h2 (congrArg Prod.snd hh1))

end

instance : DecidableEq Package := Package.decEq

/-- Embedding of `Index::list_versions`: the root has one synthetic empty
version, base packages list the catalog versions newest first, and a proxy
lists one synthetic version per alternative (its target name), in declared
order. -/
def Index.list_versions (idx : Index) (package : Package) : List DebianVersion :=
  match package with
  | .root _ => [⟨""⟩]
  | .base pkg => idx.available_versions pkg
  | .proxy dependencies => dependencies.alternatives.map (fun dep => ⟨dep.name⟩)

/-- Embedding of the `Infallible` error type of the `DependencyProvider`
implementation: it has no inhabitants. -/
def Infallible := Empty

/-- Embedding of `choose_version`: the first listed version contained in the
range, `none` when there is none; the error type is uninhabited. -/
def Index.choose_version (idx : Index) (package : Package) (range : VersionRange) :
    Except Infallible (Option DebianVersion) :=
  .ok (((idx.list_versions package).filter (fun v => range.contains v)).head?)

/-- Embedding of hash-map `insert` for dependency-constraint maps: replace
the value when the key is present, append otherwise. -/
def mapInsert {K V : Type} [DecidableEq K] (k : K) (v : V) :
    List (K × V) → List (K × V)
  | [] => [(k, v)]
  | (k2, v2) :: rest =>
    if k2 = k then (k2, v) :: rest else (k2, v2) :: mapInsert k v rest

/-- Embedding of `from_dependencies`: a single-alternative dependency
contributes `Base(target) -> range`; any other dependency contributes
`Proxy(dependency) -> full`. -/
def from_dependencies (dependencies : List Idx.Dependency) : List (Package × VersionRange) :=
  dependencies.foldl (fun map dependency =>
    match dependency.alternatives with
    | [dep] => mapInsert (Package.base dep.name) dep.range.range map
    | _ => mapInsert (Package.proxy dependency) VersionRange.full map) []

/-- Embedding of `from_proxy`: every alternative whose target name equals
the chosen synthetic version contributes `Base(name) -> range`. -/
def from_proxy (dependency : Idx.Dependency) (version : DebianVersion) :
    List (Package × VersionRange) :=
  dependency.alternatives.foldl (fun map alt =>
    if version.str = alt.name then mapInsert (Package.base alt.name) alt.range.range map
    else map) []

/-! ### Data model: parsed control-file packages (`parse.rs`) -/

/-- Embedding of `VersionRelation`. -/
inductive VersionRelation where
  | strictlyEarlier : VersionRelation
  | earlierOrEqual : VersionRelation
  | exactlyEqual : VersionRelation
  | laterOrEqual : VersionRelation
  | strictlyLater : VersionRelation
deriving DecidableEq, Repr

/-- Embedding of `VersionConstraint`. -/
structure VersionConstraint where
  relation : VersionRelation
  version : String
deriving DecidableEq, Repr

namespace Parse

/-- Embedding of `parse::Alternative`: package, optional constraint,
optional architecture tags. -/
structure Alternative where
  package : String
  version_constraint : Option VersionConstraint
  arch : Option (List String)
deriving DecidableEq, Repr

/-- Embedding of `parse::Dependency`. -/
structure Dependency where
  alternatives : List Alternative
deriving DecidableEq, Repr

end Parse

/-- Embedding of `DebianPackage`: the structured facts the external textual
parser supplies per control-file stanza. -/
structure DebianPackage where
  package : String
  version : String
  depends : List Parse.Dependency
  provides : List Parse.Dependency
deriving DecidableEq, Repr

/-- Embedding of `version_constraint_to_range`: the five Debian relations
mapped to range constructors. -/
def version_constraint_to_range (relop : VersionRelation) (version : DebianVersion) :
    VersionRange :=
  match relop with
  | .exactlyEqual => VersionRange.singleton version
  | .laterOrEqual => VersionRange.higher_than version
  | .strictlyLater => VersionRange.strictly_higher_than version
  | .strictlyEarlier => VersionRange.strictly_lower_than version
  | .earlierOrEqual => VersionRange.lower_than version

/-- Embedding of `convert_alternative`: a missing constraint becomes the
full range; architecture tags are dropped. -/
def convert_alternative (alt : Parse.Alternative) : Idx.Alternative :=
  { name := alt.package
    range := ⟨match alt.version_constraint with
      | some vc => version_constraint_to_range vc.relation ⟨vc.version⟩
      | none => VersionRange.full⟩ }

/-- Embedding of `convert_dependency`. -/
def convert_dependency (dep : Parse.Dependency) : Idx.Dependency :=
  ⟨dep.alternatives.map convert_alternative⟩

/-- Embedding of `convert_dependency_field`. -/
def convert_dependency_field (parsed : List Parse.Dependency) : List Idx.Dependency :=
  parsed.map convert_dependency

/-- Processing of one package's `provides` entries inside `create_index`:
a single-alternative entry registers the provider under the provided name,
pinned by a singleton range at the provider's version; any other shape
aborts construction (the source calls `panic`, embedded as `none`). -/
def processProvides (dp : DebianPackage) : Index → List Idx.Dependency → Option Index
  | idx, [] => some idx
  | idx, provided :: rest =>
    match provided.alternatives with
    | [dep] =>
      processProvides dp
        (idx.add_deps dep.name ⟨dp.package⟩
          [⟨[⟨dp.package, ⟨VersionRange.singleton ⟨dp.version⟩⟩⟩]⟩]) rest
    | _ => none

/-- Embedding of the index-construction loop of `create_index` over already
parsed packages (reading and textual parsing of the control file is the
external collaborator, out of the core).  Aborting construction is `none`. -/
def create_index_from (pkgs : List DebianPackage) : Option Index :=
  pkgs.foldlM (fun idx dp =>
    processProvides dp
      (idx.add_deps dp.package ⟨dp.version⟩ (convert_dependency_field dp.depends))
      (convert_dependency_field dp.provides)) Index.new

/-! ### Catalog version listing (C5) and version choice (C6) -/

/-- Well-formedness of the embedded `BTreeMap`s: in every catalog entry the
version keys are sorted strictly ascending under the Debian order. -/
def IndexWF (idx : Index) : Prop :=
  ∀ e ∈ idx.packages,
    List.Pairwise (fun v w : DebianVersion => v.cmp w = .lt) (e.2.map Prod.fst)

/-! ### Splitting claims (C7) and comparison-equal versions (C10) -/

/-- Whether the first character of a list satisfies the predicate
(false for the empty list). -/
def headSat (p : Char → Bool) : List Char → Bool
  | [] => false
  | c :: _ => p c

/-! ## Theorems -/

theorem charToNat_lt (c : Char) : c.toNat < 4294967296 := c.val.val.isLt

theorem charToNat_inj {c1 c2 : Char} (h : c1.toNat = c2.toNat) : c1 = c2 :=
  Char.ext (UInt32.ext h)

theorem natCmp_lt_iff (m n : Nat) : natCmp m n = .lt ↔ m < n := by
  unfold natCmp
  by_cases h1 : m < n
  · simp [h1]
  · by_cases h2 : m = n <;> simp [h1, h2]

theorem natCmp_eq_iff (m n : Nat) : natCmp m n = .eq ↔ m = n := by
  unfold natCmp
  by_cases h1 : m < n
  · simp [h1]; omega
  · by_cases h2 : m = n <;> simp [h1, h2]

theorem natCmp_gt_iff (m n : Nat) : natCmp m n = .gt ↔ n < m := by
  unfold natCmp
  by_cases h1 : m < n
  · simp [h1]; omega
  · by_cases h2 : m = n <;> simp [h1, h2] <;> omega

theorem natCmp_swap (m n : Nat) : natCmp m n = (natCmp n m).swap := by
  rcases Nat.lt_trichotomy m n with h | h | h
  · rw [(natCmp_lt_iff m n).mpr h, (natCmp_gt_iff n m).mpr h]; rfl
  · rw [(natCmp_eq_iff m n).mpr h, (natCmp_eq_iff n m).mpr h.symm]; rfl
  · rw [(natCmp_gt_iff m n).mpr h, (natCmp_lt_iff n m).mpr h]; rfl

theorem natCmp_shift (k m n : Nat) : natCmp (k + m) (k + n) = natCmp m n := by
  unfold natCmp
  by_cases h1 : m < n <;> by_cases h2 : m = n <;>
    simp [h1, h2, Nat.add_lt_add_iff_left] <;> omega

/-- The one-step character comparison agrees with comparison of numeric keys. -/
theorem charCmp_eq_key (c1 c2 : Char) :
    charCmp c1 c2 = natCmp (charKey c1) (charKey c2) := by
  unfold charCmp charKey charRank
  have b1 := charToNat_lt c1
  have b2 := charToNat_lt c2
  by_cases he : c1 = c2
  · subst he
    simp [(natCmp_eq_iff _ _).mpr rfl]
  · have hne : c1.toNat ≠ c2.toNat := fun h => he (charToNat_inj h)
    by_cases h1 : c1 = '~' <;> by_cases h2 : c2 = '~'
    · exact absurd (h1.trans h2.symm) he
    · subst h1
      simp only [he, h2, if_false, if_true, or_true, true_or, true_and, and_false, if_pos rfl]
      by_cases ha2 : c2.isAlpha <;> simp [ha2] <;>
        · rw [eq_comm, natCmp_lt_iff]; omega
    · subst h2
      simp only [he, h1, if_false, if_true, or_true, true_or, false_and, and_false, if_pos rfl]
      by_cases ha1 : c1.isAlpha <;> simp [h1, ha1] <;>
        · rw [eq_comm, natCmp_gt_iff]; omega
    · simp only [he, h1, h2, if_false, or_self]
      by_cases ha1 : c1.isAlpha <;> by_cases ha2 : c2.isAlpha <;>
        simp [ha1, ha2]
      · rw [natCmp_shift]
      · rw [eq_comm, natCmp_lt_iff]; omega
      · rw [eq_comm, natCmp_gt_iff]; omega
      · rw [natCmp_shift]

theorem charKey_inj {c1 c2 : Char} (h : charKey c1 = charKey c2) : c1 = c2 := by
  unfold charKey at h
  have b1 := charToNat_lt c1
  have b2 := charToNat_lt c2
  exact charToNat_inj (by omega)

theorem charCmp_eq_iff (c1 c2 : Char) : charCmp c1 c2 = .eq ↔ c1 = c2 := by
  rw [charCmp_eq_key, natCmp_eq_iff]
  exact ⟨fun h => charKey_inj h, fun h => by rw [h]⟩

theorem charCmp_swap (c1 c2 : Char) : charCmp c1 c2 = (charCmp c2 c1).swap := by
  rw [charCmp_eq_key, charCmp_eq_key, natCmp_swap]

theorem charCmp_trans_lt {c1 c2 c3 : Char} (h1 : charCmp c1 c2 = .lt)
    (h2 : charCmp c2 c3 = .lt) : charCmp c1 c3 = .lt := by
  rw [charCmp_eq_key, natCmp_lt_iff] at h1 h2 ⊢
  omega

theorem cmpChars_swap : ∀ (a b : List Char), cmpChars a b = (cmpChars b a).swap
  | [], [] => rfl
  | [], c :: _ => by
    simp only [cmpChars]
    by_cases h : c = '~' <;> simp [h, Ordering.swap]
  | c :: _, [] => by
    simp only [cmpChars]
    by_cases h : c = '~' <;> simp [h, Ordering.swap]
  | c1 :: r1, c2 :: r2 => by
    simp only [cmpChars]
    rw [charCmp_swap c1 c2]
    cases charCmp c2 c1 <;> simp [Ordering.swap, cmpChars_swap r1 r2]

theorem cmpChars_eq_iff : ∀ (a b : List Char), cmpChars a b = .eq ↔ a = b
  | [], [] => by simp [cmpChars]
  | [], c :: _ => by by_cases h : c = '~' <;> simp [cmpChars, h]
  | c :: _, [] => by by_cases h : c = '~' <;> simp [cmpChars, h]
  | c1 :: r1, c2 :: r2 => by
    simp only [cmpChars]
    cases hcc : charCmp c1 c2 with
    | eq =>
      have hc : c1 = c2 := (charCmp_eq_iff c1 c2).mp hcc
      subst hc
      simp [cmpChars_eq_iff r1 r2]
    | lt =>
      simp only [List.cons.injEq]
      constructor
      · intro hcontra; exact absurd hcontra (by decide)
      · rintro ⟨hc, -⟩
        subst hc
        rw [(charCmp_eq_iff c1 c1).mpr rfl] at hcc
        exact absurd hcc (by decide)
    | gt =>
      simp only [List.cons.injEq]
      constructor
      · intro hcontra; exact absurd hcontra (by decide)
      · rintro ⟨hc, -⟩
        subst hc
        rw [(charCmp_eq_iff c1 c1).mpr rfl] at hcc
        exact absurd hcc (by decide)

theorem cmpChars_lt_of_tilde {s r : List Char} (hs : headTilde s = true)
    (hr : headTilde r = false) : cmpChars s r = .lt := by
  cases s with
  | nil => simp [headTilde] at hs
  | cons c s1 =>
    have hc : c = '~' := by simpa [headTilde] using hs
    subst hc
    cases r with
    | nil => simp [cmpChars]
    | cons c2 r1 =>
      have hc2 : ¬(c2 = '~') := by simpa [headTilde] using hr
      have hne : ¬('~' = c2) := fun h => hc2 h.symm
      have hstep : charCmp '~' c2 = .lt := by
        unfold charCmp
        simp [hc2, hne]
      simp [cmpChars, hstep]

theorem headTilde_of_cmpChars_lt {r s : List Char} (h : cmpChars r s = .lt)
    (hs : headTilde s = true) : headTilde r = true := by
  by_contra hr
  have hr1 : headTilde r = false := by simpa using hr
  have hlt := cmpChars_lt_of_tilde hs hr1
  rw [cmpChars_swap r s, hlt] at h
  exact absurd h (by decide)

theorem cmpChars_trans_lt : ∀ (a b c : List Char),
    cmpChars a b = .lt → cmpChars b c = .lt → cmpChars a c = .lt
  | [], [], _ => by intro h1 _; simp [cmpChars] at h1
  | [], _ :: _, [] => by
    intro h1 h2
    rename_i c2 r2
    by_cases h : c2 = '~' <;> simp [cmpChars, h] at h1 h2
  | [], c2 :: r2, c3 :: r3 => by
    intro h1 h2
    by_cases h3 : c3 = '~'
    · have hh := headTilde_of_cmpChars_lt h2 (by simp [headTilde, h3])
      have hc2 : c2 = '~' := by simpa [headTilde] using hh
      simp [cmpChars, hc2] at h1
    · simp [cmpChars, h3]
  | _ :: _, [], [] => by intro _ h2; simp [cmpChars] at h2
  | c1 :: r1, [], c3 :: r3 => by
    intro h1 h2
    have hc1 : c1 = '~' := by
      by_cases h : c1 = '~'
      · exact h
      · simp [cmpChars, h] at h1
    have hc3 : ¬(c3 = '~') := by
      by_cases h : c3 = '~'
      · simp [cmpChars, h] at h2
      · exact h
    exact cmpChars_lt_of_tilde (by simp [headTilde, hc1]) (by simpa [headTilde] using hc3)
  | c1 :: r1, c2 :: r2, [] => by
    intro h1 h2
    have hc2 : c2 = '~' := by
      by_cases h : c2 = '~'
      · exact h
      · simp [cmpChars, h] at h2
    have hh := headTilde_of_cmpChars_lt h1 (by simp [headTilde, hc2])
    have hc1 : c1 = '~' := by simpa [headTilde] using hh
    simp [cmpChars, hc1]
  | c1 :: r1, c2 :: r2, c3 :: r3 => by
    intro h1 h2
    cases hcc1 : charCmp c1 c2 with
    | gt => simp [cmpChars, hcc1] at h1
    | lt =>
      cases hcc2 : charCmp c2 c3 with
      | gt => simp [cmpChars, hcc2] at h2
      | lt => simp [cmpChars, charCmp_trans_lt hcc1 hcc2]
      | eq =>
        have hc : c2 = c3 := (charCmp_eq_iff c2 c3).mp hcc2
        subst hc
        simp [cmpChars, hcc1]
    | eq =>
      have hc : c1 = c2 := (charCmp_eq_iff c1 c2).mp hcc1
      subst hc
      cases hcc2 : charCmp c1 c3 with
      | gt => simp [cmpChars, hcc2] at h2
      | lt => simp [cmpChars, hcc2]
      | eq =>
        simp only [cmpChars, hcc1] at h1
        simp only [cmpChars, hcc2] at h2 ⊢
        exact cmpChars_trans_lt r1 r2 r3 h1 h2

/-! ### Order-theoretic properties of the token comparison -/

theorem tokCmp_eq_iff : ∀ (t u : Tok), tokCmp t u = .eq ↔ t = u
  | .num n1, .num n2 => by simp [tokCmp, natCmp_eq_iff]
  | .str s1, .str s2 => by simp [tokCmp, cmpChars_eq_iff]
  | .num _, .str _ => by simp [tokCmp]
  | .str _, .num _ => by simp [tokCmp]

theorem tokCmp_swap : ∀ (t u : Tok), tokCmp t u = (tokCmp u t).swap
  | .num n1, .num n2 => by simp [tokCmp]; rw [natCmp_swap]
  | .str s1, .str s2 => by simp [tokCmp]; rw [cmpChars_swap]
  | .num _, .str _ => rfl
  | .str _, .num _ => rfl

theorem tokCmp_trans_lt : ∀ {t u v : Tok},
    tokCmp t u = .lt → tokCmp u v = .lt → tokCmp t v = .lt
  | .num n1, .num n2, .num n3 => by
    simp only [tokCmp, natCmp_lt_iff]
    omega
  | .num _, .num _, .str _ => by intro _ h2; exact absurd h2 (by simp [tokCmp])
  | .num _, .str _, _ => by intro h1 _; exact absurd h1 (by simp [tokCmp])
  | .str _, .num _, .num _ => by intro _ _; rfl
  | .str _, .num _, .str _ => by intro _ h2; exact absurd h2 (by simp [tokCmp])
  | .str s1, .str s2, .num _ => by intro _ _; rfl
  | .str s1, .str s2, .str s3 => by
    simp only [tokCmp]
    exact cmpChars_trans_lt s1 s2 s3

theorem tokCmp_lt_of_padGT : ∀ {t u : Tok},
    padGT t = true → padGT u = false → tokCmp t u = .lt
  | .num _, _ => by intro h _; simp [padGT] at h
  | .str _, .num _ => by intro _ _; rfl
  | .str s, .str r => by
    intro hs hr
    simp only [padGT] at hs hr
    simp only [tokCmp]
    exact cmpChars_lt_of_tilde hs hr

theorem padGT_of_tokCmp_lt {t u : Tok} (h : tokCmp t u = .lt)
    (hu : padGT u = true) : padGT t = true := by
  by_contra ht
  have ht1 : padGT t = false := by simpa using ht
  have hlt := tokCmp_lt_of_padGT hu ht1
  rw [tokCmp_swap t u, hlt] at h
  exact absurd h (by decide)

theorem tokListCmp_swap : ∀ (a b : List Tok), tokListCmp a b = (tokListCmp b a).swap
  | [], [] => rfl
  | [], t :: _ => by
    simp only [tokListCmp]
    by_cases h : padGT t <;> simp [h, Ordering.swap]
  | t :: _, [] => by
    simp only [tokListCmp]
    by_cases h : padGT t <;> simp [h, Ordering.swap]
  | t :: ts, u :: us => by
    simp only [tokListCmp]
    rw [tokCmp_swap t u]
    cases tokCmp u t <;> simp [Ordering.swap, tokListCmp_swap ts us]

theorem tokListCmp_eq_iff : ∀ (a b : List Tok), tokListCmp a b = .eq ↔ a = b
  | [], [] => by simp [tokListCmp]
  | [], t :: _ => by by_cases h : padGT t <;> simp [tokListCmp, h]
  | t :: _, [] => by by_cases h : padGT t <;> simp [tokListCmp, h]
  | t :: ts, u :: us => by
    simp only [tokListCmp]
    cases hcc : tokCmp t u with
    | eq =>
      have hc : t = u := (tokCmp_eq_iff t u).mp hcc
      subst hc
      simp [tokListCmp_eq_iff ts us]
    | lt =>
      simp only [List.cons.injEq]
      constructor
      · intro hcontra; exact absurd hcontra (by decide)
      · rintro ⟨hc, -⟩
        subst hc
        rw [(tokCmp_eq_iff t t).mpr rfl] at hcc
        exact absurd hcc (by decide)
    | gt =>
      simp only [List.cons.injEq]
      constructor
      · intro hcontra; exact absurd hcontra (by decide)
      · rintro ⟨hc, -⟩
        subst hc
        rw [(tokCmp_eq_iff t t).mpr rfl] at hcc
        exact absurd hcc (by decide)

theorem tokListCmp_lt_of_padGT {s r : List Tok} (hs : padGTHead s = true)
    (hr : padGTHead r = false) : tokListCmp s r = .lt := by
  cases s with
  | nil => simp [padGTHead] at hs
  | cons t ts =>
    simp only [padGTHead] at hs
    cases r with
    | nil => simp [tokListCmp, hs]
    | cons u us =>
      simp only [padGTHead] at hr
      have hstep := tokCmp_lt_of_padGT hs hr
      simp [tokListCmp, hstep]

theorem padGTHead_of_tokListCmp_lt {r s : List Tok} (h : tokListCmp r s = .lt)
    (hs : padGTHead s = true) : padGTHead r = true := by
  by_contra hr
  have hr1 : padGTHead r = false := by simpa using hr
  have hlt := tokListCmp_lt_of_padGT hs hr1
  rw [tokListCmp_swap r s, hlt] at h
  exact absurd h (by decide)

theorem tokListCmp_trans_lt : ∀ (a b c : List Tok),
    tokListCmp a b = .lt → tokListCmp b c = .lt → tokListCmp a c = .lt
  | [], [], _ => by intro h1 _; simp [tokListCmp] at h1
  | [], u :: us, [] => by
    intro h1 h2
    by_cases h : padGT u <;> simp [tokListCmp, h] at h1 h2
  | [], u :: us, v :: vs => by
    intro h1 h2
    by_cases h3 : padGT v
    · have hh := padGTHead_of_tokListCmp_lt h2 (by simp [padGTHead, h3])
      have hu : padGT u = true := by simpa [padGTHead] using hh
      simp [tokListCmp, hu] at h1
    · simp [tokListCmp, h3]
  | _ :: _, [], [] => by intro _ h2; simp [tokListCmp] at h2
  | t :: ts, [], v :: vs => by
    intro h1 h2
    have ht : padGT t = true := by
      by_cases h : padGT t
      · exact h
      · simp [tokListCmp, h] at h1
    have hv : padGT v = false := by
      by_cases h : padGT v
      · simp [tokListCmp, h] at h2
      · simpa using h
    exact tokListCmp_lt_of_padGT (by simp [padGTHead, ht]) (by simp [padGTHead, hv])
  | t :: ts, u :: us, [] => by
    intro h1 h2
    have hu : padGT u = true := by
      by_cases h : padGT u
      · exact h
      · simp [tokListCmp, h] at h2
    have hh := padGTHead_of_tokListCmp_lt h1 (by simp [padGTHead, hu])
    have ht : padGT t = true := by simpa [padGTHead] using hh
    simp [tokListCmp, ht]
  | t :: ts, u :: us, v :: vs => by
    intro h1 h2
    cases hcc1 : tokCmp t u with
    | gt => simp [tokListCmp, hcc1] at h1
    | lt =>
      cases hcc2 : tokCmp u v with
      | gt => simp [tokListCmp, hcc2] at h2
      | lt => simp [tokListCmp, tokCmp_trans_lt hcc1 hcc2]
      | eq =>
        have hc : u = v := (tokCmp_eq_iff u v).mp hcc2
        subst hc
        simp [tokListCmp, hcc1]
    | eq =>
      have hc : t = u := (tokCmp_eq_iff t u).mp hcc1
      subst hc
      cases hcc2 : tokCmp t v with
      | gt => simp [tokListCmp, hcc2] at h2
      | lt => simp [tokListCmp, hcc2]
      | eq =>
        simp only [tokListCmp, hcc1] at h1
        simp only [tokListCmp, hcc2] at h2 ⊢
        exact tokListCmp_trans_lt ts us vs h1 h2

theorem vcmp_eq_keyCmp (a b : List Char) : vcmp a b = keyCmp (vkey a) (vkey b) := rfl

theorem keyCmp_refl (k : Nat × List Tok × List Tok) : keyCmp k k = .eq := by
  simp [keyCmp, (natCmp_eq_iff k.1 k.1).mpr rfl,
    (tokListCmp_eq_iff k.2.1 k.2.1).mpr rfl, (tokListCmp_eq_iff k.2.2 k.2.2).mpr rfl]

theorem keyCmp_swap (k1 k2 : Nat × List Tok × List Tok) :
    keyCmp k1 k2 = (keyCmp k2 k1).swap := by
  simp only [keyCmp]
  cases h1 : natCmp k2.1 k1.1 with
  | lt =>
    have h1s : natCmp k1.1 k2.1 = .gt := by rw [natCmp_swap, h1]; rfl
    simp [h1, h1s, Ordering.swap]
  | gt =>
    have h1s : natCmp k1.1 k2.1 = .lt := by rw [natCmp_swap, h1]; rfl
    simp [h1, h1s, Ordering.swap]
  | eq =>
    have h1s : natCmp k1.1 k2.1 = .eq := by rw [natCmp_swap, h1]; rfl
    cases h2 : tokListCmp k2.2.1 k1.2.1 with
    | lt =>
      have h2s : tokListCmp k1.2.1 k2.2.1 = .gt := by rw [tokListCmp_swap, h2]; rfl
      simp [h1, h1s, h2, h2s, Ordering.swap]
    | gt =>
      have h2s : tokListCmp k1.2.1 k2.2.1 = .lt := by rw [tokListCmp_swap, h2]; rfl
      simp [h1, h1s, h2, h2s, Ordering.swap]
    | eq =>
      have h2s : tokListCmp k1.2.1 k2.2.1 = .eq := by rw [tokListCmp_swap, h2]; rfl
      simp [h1, h1s, h2, h2s, tokListCmp_swap k1.2.2 k2.2.2]

theorem keyCmp_eq_iff (k1 k2 : Nat × List Tok × List Tok) :
    keyCmp k1 k2 = .eq ↔ k1 = k2 := by
  constructor
  · intro h
    simp only [keyCmp] at h
    cases h1 : natCmp k1.1 k2.1 with
    | lt => simp [h1] at h
    | gt => simp [h1] at h
    | eq =>
      simp only [h1] at h
      cases h2 : tokListCmp k1.2.1 k2.2.1 with
      | lt => simp [h2] at h
      | gt => simp [h2] at h
      | eq =>
        simp only [h2] at h
        have e1 := (natCmp_eq_iff k1.1 k2.1).mp h1
        have e2 := (tokListCmp_eq_iff k1.2.1 k2.2.1).mp h2
        have e3 := (tokListCmp_eq_iff k1.2.2 k2.2.2).mp h
        exact Prod.ext e1 (Prod.ext e2 e3)
  · intro h
    subst h
    exact keyCmp_refl k1

theorem keyCmp_trans_lt : ∀ k1 k2 k3 : Nat × List Tok × List Tok,
    keyCmp k1 k2 = .lt → keyCmp k2 k3 = .lt → keyCmp k1 k3 = .lt := by
  rintro ⟨e1, u1, d1⟩ ⟨e2, u2, d2⟩ ⟨e3, u3, d3⟩ h1 h2
  simp only [keyCmp] at h1 h2 ⊢
  cases he1 : natCmp e1 e2 with
  | gt => simp [he1] at h1
  | lt =>
    cases he2 : natCmp e2 e3 with
    | gt => simp [he2] at h2
    | lt =>
      have hlt : natCmp e1 e3 = .lt := by
        rw [natCmp_lt_iff] at he1 he2 ⊢
        omega
      simp [hlt]
    | eq =>
      have he : e2 = e3 := (natCmp_eq_iff e2 e3).mp he2
      subst he
      simp [he1]
  | eq =>
    have he : e1 = e2 := (natCmp_eq_iff e1 e2).mp he1
    subst he
    simp only [he1] at h1
    cases he2 : natCmp e1 e3 with
    | gt => simp [he2] at h2
    | lt => simp [he2]
    | eq =>
      simp only [he2] at h2
      simp only [he2]
      cases hu1 : tokListCmp u1 u2 with
      | gt => simp [hu1] at h1
      | lt =>
        cases hu2 : tokListCmp u2 u3 with
        | gt => simp [hu2] at h2
        | lt => simp [tokListCmp_trans_lt u1 u2 u3 hu1 hu2]
        | eq =>
          have hu : u2 = u3 := (tokListCmp_eq_iff u2 u3).mp hu2
          subst hu
          simp [hu1]
      | eq =>
        have hu : u1 = u2 := (tokListCmp_eq_iff u1 u2).mp hu1
        subst hu
        simp only [hu1] at h1
        cases hu2 : tokListCmp u1 u3 with
        | gt => simp [hu2] at h2
        | lt => simp [hu2]
        | eq =>
          simp only [hu2] at h2
          simp only [hu2]
          exact tokListCmp_trans_lt d1 d2 d3 h1 h2

theorem vcmp_refl (a : List Char) : vcmp a a = .eq := by
  rw [vcmp_eq_keyCmp]; exact keyCmp_refl _

theorem vcmp_swap (a b : List Char) : vcmp a b = (vcmp b a).swap := by
  rw [vcmp_eq_keyCmp, vcmp_eq_keyCmp]; exact keyCmp_swap _ _

theorem vcmp_eq_iff_vkey (a b : List Char) : vcmp a b = .eq ↔ vkey a = vkey b := by
  rw [vcmp_eq_keyCmp]; exact keyCmp_eq_iff _ _

theorem vcmp_trans_lt {a b c : List Char} (h1 : vcmp a b = .lt)
    (h2 : vcmp b c = .lt) : vcmp a c = .lt := by
  rw [vcmp_eq_keyCmp] at h1 h2 ⊢
  exact keyCmp_trans_lt _ _ _ h1 h2

theorem vcmp_gt_of_swap {a b : List Char} (h : vcmp a b = .lt) : vcmp b a = .gt := by
  rw [vcmp_swap b a, h]; rfl

theorem vcmp_lt_of_swap {a b : List Char} (h : vcmp a b = .gt) : vcmp b a = .lt := by
  have hs := vcmp_swap a b
  rw [h] at hs
  cases hv : vcmp b a <;> rw [hv] at hs <;> first | rfl | exact absurd hs (by decide)

/-- C1: the comparison defined by `Ord for DebianVersion` is a total order on
all version strings: it is reflexive (`compare(a,a) = Equal`), antisymmetric
(`compare(a,b)` is the opposite of `compare(b,a)`), and transitive for
`Less`, `Greater` and `Equal` alike. -/
theorem debianVersion_cmp_total_order :
    (∀ a : DebianVersion, a.cmp a = .eq) ∧
    (∀ a b : DebianVersion, a.cmp b = (b.cmp a).swap) ∧
    (∀ a b c : DebianVersion, a.cmp b = .lt → b.cmp c = .lt → a.cmp c = .lt) ∧
    (∀ a b c : DebianVersion, a.cmp b = .gt → b.cmp c = .gt → a.cmp c = .gt) ∧
    (∀ a b c : DebianVersion, a.cmp b = .eq → b.cmp c = .eq → a.cmp c = .eq) := by
  refine ⟨fun a => vcmp_refl _, fun a b => vcmp_swap _ _, ?_, ?_, ?_⟩
  · intro a b c h1 h2
    exact vcmp_trans_lt h1 h2
  · intro a b c h1 h2
    have h1s := vcmp_lt_of_swap h1
    have h2s := vcmp_lt_of_swap h2
    have := vcmp_trans_lt h2s h1s
    exact vcmp_gt_of_swap this
  · intro a b c h1 h2
    have h1k := (vcmp_eq_iff_vkey a.str.data b.str.data).mp h1
    have h2k := (vcmp_eq_iff_vkey b.str.data c.str.data).mp h2
    exact (vcmp_eq_iff_vkey a.str.data c.str.data).mpr (h1k.trans h2k)

/-- Witness for C1 at concrete inputs: transitivity applied to
`"1.0" < "1.1" < "2.0"`, and the other clauses at the same inputs. -/
theorem debianVersion_cmp_total_order_witness :
    DebianVersion.cmp ⟨"1.0"⟩ ⟨"2.0"⟩ = .lt ∧
    DebianVersion.cmp ⟨"2.0"⟩ ⟨"1.0"⟩ = .gt ∧
    DebianVersion.cmp ⟨"0:1.0"⟩ ⟨"1.0-0"⟩ = .eq := by
  refine ⟨?_, ?_, ?_⟩
  · exact debianVersion_cmp_total_order.2.2.1 ⟨"1.0"⟩ ⟨"1.1"⟩ ⟨"2.0"⟩
      (by decide) (by decide)
  · exact debianVersion_cmp_total_order.2.2.2.1 ⟨"2.0"⟩ ⟨"1.5"⟩ ⟨"1.0"⟩
      (by decide) (by decide)
  · exact debianVersion_cmp_total_order.2.2.2.2 ⟨"0:1.0"⟩ ⟨"1.0"⟩ ⟨"1.0-0"⟩
      (by decide) (by decide)

/-- C3: the twelve reference version strings are already in strictly
increasing order under the Debian comparison, so sorting them yields exactly
the listed order. -/
theorem reference_ordering_chain :
    DebianVersion.cmp ⟨"~~"⟩ ⟨"~"⟩ = .lt ∧
    DebianVersion.cmp ⟨"~"⟩ ⟨"~beta2"⟩ = .lt ∧
    DebianVersion.cmp ⟨"~beta2"⟩ ⟨"~beta10"⟩ = .lt ∧
    DebianVersion.cmp ⟨"~beta10"⟩ ⟨"0.1"⟩ = .lt ∧
    DebianVersion.cmp ⟨"0.1"⟩ ⟨"1.0~beta"⟩ = .lt ∧
    DebianVersion.cmp ⟨"1.0~beta"⟩ ⟨"1.0"⟩ = .lt ∧
    DebianVersion.cmp ⟨"1.0"⟩ ⟨"1.0-test"⟩ = .lt ∧
    DebianVersion.cmp ⟨"1.0-test"⟩ ⟨"1.0.1"⟩ = .lt ∧
    DebianVersion.cmp ⟨"1.0.1"⟩ ⟨"1.0.10"⟩ = .lt ∧
    DebianVersion.cmp ⟨"1.0.10"⟩ ⟨"dev"⟩ = .lt ∧
    DebianVersion.cmp ⟨"dev"⟩ ⟨"trunk"⟩ = .lt := by
  decide

/-! ### Characterization of the version splitting -/

theorem takeWhile_ne_append : ∀ (pre : List Char) (c : Char) (t : List Char),
    c ∉ pre →
    (pre ++ c :: t).takeWhile (fun x => !decide (x = c)) = pre ∧
    (pre ++ c :: t).dropWhile (fun x => !decide (x = c)) = c :: t
  | [], c, t => by
    intro _
    simp [List.takeWhile, List.dropWhile]
  | a :: pre, c, t => by
    intro h
    have hac : ¬(a = c) := fun hh => h (by simp [hh])
    have hc : c ∉ pre := fun hh => h (by simp [hh])
    have ih := takeWhile_ne_append pre c t hc
    simp [List.takeWhile, List.dropWhile, hac, ih.1, ih.2]

theorem splitChars_no_colon_no_hyphen {s : List Char}
    (hc : ':' ∉ trimChars s) (hh : '-' ∉ trimChars s) :
    splitChars s = (0, trimChars s, ['0']) := by
  simp [splitChars, hc, hh]

theorem splitChars_colon_no_hyphen {s : List Char} (pre rest : List Char)
    (hsplit : trimChars s = pre ++ ':' :: rest) (hpre : ':' ∉ pre)
    (hrest : '-' ∉ rest) :
    splitChars s = (parseU64 pre, rest, ['0']) := by
  have htd := takeWhile_ne_append pre ':' rest hpre
  have hmem : ':' ∈ pre ++ ':' :: rest := by simp
  simp [splitChars, hsplit, hmem, htd.1, htd.2, hrest]

theorem splitChars_no_colon_hyphen {s : List Char} (up rev : List Char)
    (hsplit : trimChars s = up ++ '-' :: rev) (hc : ':' ∉ trimChars s)
    (hrev : '-' ∉ rev) :
    splitChars s = (0, up, rev) := by
  rw [hsplit] at hc
  simp only [List.mem_append, List.mem_cons, not_or] at hc
  have hrev2 : '-' ∉ rev.reverse := by simpa using hrev
  have htd := takeWhile_ne_append rev.reverse '-' up.reverse hrev2
  have hrevlist : (up ++ '-' :: rev).reverse = rev.reverse ++ '-' :: up.reverse := by
    simp
  have hmem : '-' ∈ up ++ '-' :: rev := by simp
  simp [splitChars, hsplit, hc.1, hc.2.1, hc.2.2, hmem, hrevlist, htd.1, htd.2]

theorem splitChars_colon_hyphen {s : List Char} (pre rest up rev : List Char)
    (hsplit : trimChars s = pre ++ ':' :: rest) (hpre : ':' ∉ pre)
    (hrest : rest = up ++ '-' :: rev) (hrev : '-' ∉ rev) :
    splitChars s = (parseU64 pre, up, rev) := by
  have htd := takeWhile_ne_append pre ':' rest hpre
  have hrev2 : '-' ∉ rev.reverse := by simpa using hrev
  have htd2 := takeWhile_ne_append rev.reverse '-' up.reverse hrev2
  have hrevlist : rest.reverse = rev.reverse ++ '-' :: up.reverse := by
    simp [hrest]
  have hmem : ':' ∈ pre ++ ':' :: rest := by simp
  have hmem2 : '-' ∈ rest := by simp [hrest]
  simp [splitChars, hsplit, hmem, htd.1, htd.2, hmem2, hrevlist, htd2.1, htd2.2]

/-! ### Range membership agrees with the comparator (C9) -/

theorem debCmp_swap (a b : DebianVersion) : a.cmp b = (b.cmp a).swap :=
  vcmp_swap _ _

theorem debCmp_refl (a : DebianVersion) : a.cmp a = .eq :=
  vcmp_refl _

/-- C9: `version_constraint_to_range` maps each of the five relations to a
range whose membership agrees with the `DebianVersion` comparator; in
particular `higherOrEqual(v)` contains `v` and `strictlyHigher(v)` does not. -/
theorem version_constraint_to_range_spec :
    (∀ v w : DebianVersion,
      ((version_constraint_to_range .laterOrEqual v).contains w = true ↔
        (w.cmp v = .gt ∨ w.cmp v = .eq)) ∧
      ((version_constraint_to_range .strictlyLater v).contains w = true ↔
        w.cmp v = .gt) ∧
      ((version_constraint_to_range .earlierOrEqual v).contains w = true ↔
        (w.cmp v = .lt ∨ w.cmp v = .eq)) ∧
      ((version_constraint_to_range .strictlyEarlier v).contains w = true ↔
        w.cmp v = .lt) ∧
      ((version_constraint_to_range .exactlyEqual v).contains w = true ↔
        w.cmp v = .eq)) ∧
    (∀ v : DebianVersion, (version_constraint_to_range .laterOrEqual v).contains v = true) ∧
    (∀ v : DebianVersion, (version_constraint_to_range .strictlyLater v).contains v = false) := by
  refine ⟨fun v w => ?_, fun v => ?_, fun v => ?_⟩
  · have hsw : v.cmp w = (w.cmp v).swap := debCmp_swap v w
    cases h : w.cmp v <;>
      simp [version_constraint_to_range, VersionRange.contains,
        VersionRange.higher_than, VersionRange.strictly_higher_than,
        VersionRange.lower_than, VersionRange.strictly_lower_than,
        VersionRange.singleton, VBound.startOk, VBound.endOk,
        hsw, h, Ordering.swap]
  · simp [version_constraint_to_range, VersionRange.contains,
      VersionRange.higher_than, VBound.startOk, VBound.endOk, debCmp_refl]
  · simp [version_constraint_to_range, VersionRange.contains,
      VersionRange.strictly_higher_than, VBound.startOk, VBound.endOk, debCmp_refl]

/-! ### Alternative encoding: proxy dependencies (C2) and dependency maps (C4) -/

theorem mapInsert_fresh {K V : Type} [DecidableEq K] (k : K) (v : V) :
    ∀ (m : List (K × V)), (∀ p ∈ m, p.1 ≠ k) → mapInsert k v m = m ++ [(k, v)]
  | [], _ => rfl
  | (k2, v2) :: rest, h => by
    have hk2 : k2 ≠ k := h (k2, v2) (by simp)
    have hrest : ∀ p ∈ rest, p.1 ≠ k := fun p hp => h p (by simp [hp])
    simp [mapInsert, hk2, mapInsert_fresh k v rest hrest]

theorem from_proxy_skip (v : DebianVersion) :
    ∀ (l : List Idx.Alternative) (acc : List (Package × VersionRange)),
      (∀ x ∈ l, v.str ≠ x.name) →
      l.foldl (fun map alt =>
        if v.str = alt.name then mapInsert (Package.base alt.name) alt.range.range map
        else map) acc = acc
  | [], _, _ => rfl
  | x :: l, acc, h => by
    have hx : v.str ≠ x.name := h x (by simp)
    have hl : ∀ y ∈ l, v.str ≠ y.name := fun y hy => h y (by simp [hy])
    simp [hx, from_proxy_skip v l acc hl]

/-- C2: when the chosen synthetic version is the target name of one of the
(distinctly named) alternatives, `from_proxy` emits exactly the one
constraint `Base(target) -> range` of that alternative, the others
contributing nothing; and a proxy's synthetic versions are exactly its
alternatives' target names, one each, in declared order. -/
theorem from_proxy_spec {d : Idx.Dependency} {v : DebianVersion} {a : Idx.Alternative}
    (hnodup : (d.alternatives.map Idx.Alternative.name).Nodup)
    (hmem : a ∈ d.alternatives) (hname : a.name = v.str) :
    from_proxy d v = [(Package.base a.name, a.range.range)] ∧
    ∀ idx : Index, idx.list_versions (.proxy d) =
      d.alternatives.map (fun alt => ⟨alt.name⟩) := by
  refine ⟨?_, fun idx => rfl⟩
  obtain ⟨l1, l2, hsplit⟩ := List.append_of_mem hmem
  have hnames := hnodup
  rw [hsplit, List.map_append, List.map_cons] at hnames
  have h1 : ∀ x ∈ l1, v.str ≠ x.name := by
    intro x hx hh
    have hxa : x.name = a.name := by rw [← hh, ← hname]
    have hdisj := List.disjoint_of_nodup_append hnames
    exact hdisj (List.mem_map_of_mem Idx.Alternative.name hx) (by simp [hxa])
  have h2 : ∀ x ∈ l2, v.str ≠ x.name := by
    intro x hx hh
    have hnd2 := (List.nodup_append.mp hnames).2.1
    have hnotin := (List.nodup_cons.mp hnd2).1
    exact hnotin (by rw [hname, hh]; exact List.mem_map_of_mem Idx.Alternative.name hx)
  unfold from_proxy
  rw [hsplit, List.foldl_append, from_proxy_skip v l1 [] h1, List.foldl_cons]
  rw [if_pos hname.symm]
  rw [from_proxy_skip v l2 _ h2]
  rfl

/-- Witness for C2 at a concrete two-alternative dependency. -/
theorem from_proxy_spec_witness :
    from_proxy ⟨[⟨"a", ⟨VersionRange.full⟩⟩, ⟨"b", ⟨VersionRange.full⟩⟩]⟩ ⟨"a"⟩ =
      [(Package.base "a", VersionRange.full)] ∧
    (Index.new).list_versions
        (.proxy ⟨[⟨"a", ⟨VersionRange.full⟩⟩, ⟨"b", ⟨VersionRange.full⟩⟩]⟩) =
      [⟨"a"⟩, ⟨"b"⟩] := by
  have h := @from_proxy_spec
    ⟨[⟨"a", ⟨VersionRange.full⟩⟩, ⟨"b", ⟨VersionRange.full⟩⟩]⟩
    ⟨"a"⟩ ⟨"a", ⟨VersionRange.full⟩⟩
    (by decide) (by simp) rfl
  exact ⟨h.1, by simpa using h.2 Index.new⟩

theorem foldl_mapInsert_fresh {α K V : Type} [DecidableEq K]
    (key : α → K) (val : α → V) :
    ∀ (l : List α) (acc : List (K × V)),
      (∀ p ∈ acc, p.1 ∉ l.map key) → (l.map key).Nodup →
      l.foldl (fun m x => mapInsert (key x) (val x) m) acc =
        acc ++ l.map (fun x => (key x, val x))
  | [], acc, _, _ => by simp
  | x :: l, acc, hdisj, hnodup => by
    have hfresh : ∀ p ∈ acc, p.1 ≠ key x := fun p hp => by
      have := hdisj p hp
      simp only [List.map_cons, List.mem_cons, not_or] at this
      exact this.1
    have hnodup2 : (key x :: l.map key).Nodup := by simpa using hnodup
    have hnd := List.nodup_cons.mp hnodup2
    have hdisj2 : ∀ p ∈ acc ++ [(key x, val x)], p.1 ∉ l.map key := by
      intro p hp
      rcases List.mem_append.mp hp with hp1 | hp1
      · have := hdisj p hp1
        simp only [List.map_cons, List.mem_cons, not_or] at this
        exact this.2
      · simp only [List.mem_singleton] at hp1
        subst hp1
        exact hnd.1
    calc (x :: l).foldl (fun m y => mapInsert (key y) (val y) m) acc
        = l.foldl (fun m y => mapInsert (key y) (val y) m) (mapInsert (key x) (val x) acc) := by
          simp
      _ = l.foldl (fun m y => mapInsert (key y) (val y) m) (acc ++ [(key x, val x)]) := by
          rw [mapInsert_fresh (key x) (val x) acc hfresh]
      _ = (acc ++ [(key x, val x)]) ++ l.map (fun y => (key y, val y)) :=
          foldl_mapInsert_fresh key val l _ hdisj2 hnd.2
      _ = acc ++ (x :: l).map (fun y => (key y, val y)) := by simp

/-- C4: when the implied constraint keys are pairwise distinct,
`from_dependencies` maps each single-alternative dependency to the direct
constraint `Base(target) -> range` and every other dependency to the single
constraint `Proxy(dependency) -> full`, in declared order. -/
theorem from_dependencies_spec {deps : List Idx.Dependency}
    (hnodup : (deps.map (fun d =>
      match d.alternatives with
      | [dep] => Package.base dep.name
      | _ => Package.proxy d)).Nodup) :
    from_dependencies deps = deps.map (fun d =>
      match d.alternatives with
      | [dep] => (Package.base dep.name, dep.range.range)
      | _ => (Package.proxy d, VersionRange.full)) := by
  have hstep : (fun (map : List (Package × VersionRange)) (dependency : Idx.Dependency) =>
      match dependency.alternatives with
      | [dep] => mapInsert (Package.base dep.name) dep.range.range map
      | _ => mapInsert (Package.proxy dependency) VersionRange.full map) =
      (fun m d => mapInsert
        (match d.alternatives with
          | [dep] => Package.base dep.name
          | _ => Package.proxy d)
        (match d.alternatives with
          | [dep] => dep.range.range
          | _ => VersionRange.full) m) := by
    funext m d
    obtain ⟨alts⟩ := d
    match alts with
    | [] => rfl
    | [dep] => rfl
    | x :: y :: rest => rfl
  have := foldl_mapInsert_fresh
    (fun d : Idx.Dependency =>
      match d.alternatives with
      | [dep] => Package.base dep.name
      | _ => Package.proxy d)
    (fun d : Idx.Dependency =>
      match d.alternatives with
      | [dep] => dep.range.range
      | _ => VersionRange.full)
    deps [] (by simp) hnodup
  unfold from_dependencies
  rw [hstep, this]
  simp only [List.nil_append]
  apply List.map_congr_left
  intro d _
  obtain ⟨alts⟩ := d
  match alts with
  | [] => rfl
  | [dep] => rfl
  | x :: y :: rest => rfl

/-- C4 fails as literally stated: with two single-alternative dependencies
on the same target name (legal Debian input, e.g. `foo (>= 1), foo (<< 2)`),
the map insert overwrites the first range, so the first dependency is not
mapped to its constraint. -/
theorem from_dependencies_claim_counterexample :
    from_dependencies
      [⟨[⟨"foo", ⟨VersionRange.higher_than ⟨"1"⟩⟩⟩]⟩,
        ⟨[⟨"foo", ⟨VersionRange.strictly_lower_than ⟨"2"⟩⟩⟩]⟩] =
      [(Package.base "foo", VersionRange.strictly_lower_than ⟨"2"⟩)] ∧
    (Package.base "foo", VersionRange.higher_than ⟨"1"⟩) ∉
      from_dependencies
        [⟨[⟨"foo", ⟨VersionRange.higher_than ⟨"1"⟩⟩⟩]⟩,
          ⟨[⟨"foo", ⟨VersionRange.strictly_lower_than ⟨"2"⟩⟩⟩]⟩] := by
  decide

/-- Witness for C4 at a concrete list with one single-alternative and one
two-alternative dependency. -/
theorem from_dependencies_spec_witness :
    from_dependencies
      [⟨[⟨"a", ⟨VersionRange.full⟩⟩]⟩, ⟨[⟨"b", ⟨VersionRange.full⟩⟩, ⟨"c", ⟨VersionRange.full⟩⟩]⟩] =
      [(Package.base "a", VersionRange.full),
        (Package.proxy ⟨[⟨"b", ⟨VersionRange.full⟩⟩, ⟨"c", ⟨VersionRange.full⟩⟩]⟩,
          VersionRange.full)] := by
  have h := @from_dependencies_spec
    [⟨[⟨"a", ⟨VersionRange.full⟩⟩]⟩,
      ⟨[⟨"b", ⟨VersionRange.full⟩⟩, ⟨"c", ⟨VersionRange.full⟩⟩]⟩]
    (by decide)
  simpa using h

theorem pkgLookup_mem {α : Type} :
    ∀ {m : List (String × α)} {k : String} {a : α},
      pkgLookup m k = some a → (k, a) ∈ m
  | [], _, _, h => by simp [pkgLookup] at h
  | (n, b) :: rest, k, a, h => by
    by_cases hn : n = k
    · subst hn
      simp [pkgLookup] at h
      simp [h]
    · simp [pkgLookup, hn] at h
      exact List.mem_cons_of_mem _ (pkgLookup_mem h)

/-- C5: for a Base package name, `list_versions` returns the catalog's known
versions newest first (strictly decreasing under the Debian order, given the
catalog invariant), and the empty sequence when the name is absent; the
function is total, so no error is possible. -/
theorem list_versions_base_spec :
    (∀ (idx : Index) (pkg : String), pkgLookup idx.packages pkg = none →
      idx.list_versions (.base pkg) = []) ∧
    (∀ (idx : Index) (pkg : String) vm, IndexWF idx →
      pkgLookup idx.packages pkg = some vm →
      idx.list_versions (.base pkg) = (vm.map Prod.fst).reverse ∧
      List.Pairwise (fun v w : DebianVersion => v.cmp w = .gt)
        (idx.list_versions (.base pkg))) := by
  constructor
  · intro idx pkg h
    simp [Index.list_versions, Index.available_versions, h]
  · intro idx pkg vm hwf h
    have hlist : idx.list_versions (.base pkg) = (vm.map Prod.fst).reverse := by
      simp [Index.list_versions, Index.available_versions, h]
    refine ⟨hlist, ?_⟩
    rw [hlist]
    have hasc := hwf (pkg, vm) (pkgLookup_mem h)
    rw [List.pairwise_reverse]
    exact hasc.imp (fun hlt => by
      rw [debCmp_swap, hlt]
      rfl)

/-- Witness for C5 at a concrete two-version catalog and an absent name. -/
theorem list_versions_base_spec_witness :
    (Index.mk [("foo", [(⟨"1.0"⟩, []), (⟨"2.0"⟩, [])])]).list_versions (.base "foo") =
      [⟨"2.0"⟩, ⟨"1.0"⟩] ∧
    List.Pairwise (fun v w : DebianVersion => v.cmp w = .gt)
      ((Index.mk [("foo", [(⟨"1.0"⟩, []), (⟨"2.0"⟩, [])])]).list_versions (.base "foo")) ∧
    (Index.mk [("foo", [(⟨"1.0"⟩, []), (⟨"2.0"⟩, [])])]).list_versions (.base "bar") = [] := by
  have hwf : IndexWF (Index.mk [("foo", [(⟨"1.0"⟩, []), (⟨"2.0"⟩, [])])]) := by
    intro e he
    simp only [List.mem_singleton] at he
    subst he
    exact List.Pairwise.cons
      (by
        intro b hb
        simp only [List.map_cons, List.map_nil, List.mem_singleton] at hb
        subst hb
        decide)
      (List.Pairwise.cons (by simp) List.Pairwise.nil)
  have h2 := list_versions_base_spec.2 (Index.mk [("foo", [(⟨"1.0"⟩, []), (⟨"2.0"⟩, [])])])
    "foo" [(⟨"1.0"⟩, []), (⟨"2.0"⟩, [])] hwf rfl
  refine ⟨by simpa using h2.1, h2.2, ?_⟩
  exact list_versions_base_spec.1 _ "bar" rfl

theorem filter_head_eq_find (p : α → Bool) :
    ∀ l : List α, (l.filter p).head? = l.find? p
  | [] => rfl
  | a :: l => by
    by_cases h : p a <;>
      simp [List.filter_cons, List.find?_cons, h, filter_head_eq_find p l]

theorem find_first (p : α → Bool) :
    ∀ (l1 : List α) (v : α) (l2 : List α), p v = true → (∀ u ∈ l1, p u = false) →
      List.find? p (l1 ++ v :: l2) = some v
  | [], v, l2, hv, _ => by simp [List.find?_cons, hv]
  | a :: l1, v, l2, hv, h => by
    have ha : p a = false := h a (by simp)
    have hl : ∀ u ∈ l1, p u = false := fun u hu => h u (by simp [hu])
    simp [List.find?_cons, ha, find_first p l1 v l2 hv hl]

/-- C6: `choose_version` never errors (its error type is uninhabited) and
returns the first version in policy order contained in the range, or `none`
when no listed version is contained; the policy order is the single
synthetic empty version for the root, the catalog versions newest first for
a Base package, and the alternatives' names in declared order for a proxy. -/
theorem choose_version_spec :
    (∀ (idx : Index) (p : Package) (r : VersionRange),
      ∃ o, idx.choose_version p r = .ok o) ∧
    (∀ (idx : Index) (p : Package) (r : VersionRange) (v : DebianVersion)
      (l1 l2 : List DebianVersion),
      idx.list_versions p = l1 ++ v :: l2 → r.contains v = true →
      (∀ u ∈ l1, r.contains u = false) →
      idx.choose_version p r = .ok (some v)) ∧
    (∀ (idx : Index) (p : Package) (r : VersionRange),
      (∀ v ∈ idx.list_versions p, r.contains v = false) →
      idx.choose_version p r = .ok none) ∧
    (∀ (idx : Index) (p : Package) (r : VersionRange) (v : DebianVersion),
      idx.choose_version p r = .ok (some v) →
      r.contains v = true ∧ v ∈ idx.list_versions p) ∧
    (∀ (idx : Index) (reqs : List (Package × VersionRange)),
      idx.list_versions (.root reqs) = [⟨""⟩]) ∧
    (∀ (idx : Index) (pkg : String),
      idx.list_versions (.base pkg) = idx.available_versions pkg) ∧
    (∀ (idx : Index) (d : Idx.Dependency),
      idx.list_versions (.proxy d) = d.alternatives.map (fun alt => ⟨alt.name⟩)) := by
  refine ⟨?_, ?_, ?_, ?_, fun idx reqs => rfl, fun idx pkg => rfl, fun idx d => rfl⟩
  · intro idx p r
    exact ⟨_, rfl⟩
  · intro idx p r v l1 l2 hl hv hall
    unfold Index.choose_version
    rw [filter_head_eq_find, hl, find_first _ l1 v l2 hv hall]
  · intro idx p r hall
    unfold Index.choose_version
    rw [filter_head_eq_find]
    have hnone : (idx.list_versions p).find? (fun v => r.contains v) = none := by
      rw [List.find?_eq_none]
      intro x hx
      simp [hall x hx]
    rw [hnone]
  · intro idx p r v h
    unfold Index.choose_version at h
    rw [filter_head_eq_find] at h
    have h2 : (idx.list_versions p).find? (fun v => r.contains v) = some v := by
      injection h
    exact ⟨List.find?_some h2, List.mem_of_find?_eq_some h2⟩

/-- Witness for C6 at a concrete catalog: the newest version of `foo`
contained in the full range is chosen. -/
theorem choose_version_spec_witness :
    (Index.mk [("foo", [(⟨"1.0"⟩, []), (⟨"2.0"⟩, [])])]).choose_version
      (.base "foo") VersionRange.full = .ok (some ⟨"2.0"⟩) :=
  choose_version_spec.2.1 _ (.base "foo") VersionRange.full ⟨"2.0"⟩ [] [⟨"1.0"⟩]
    (by decide) (by decide) (by simp)

/-! ### Index construction and provides handling (C8) -/

theorem processProvides_none (dp : DebianPackage) :
    ∀ (provs : List Idx.Dependency) (idx : Index),
      (∃ p ∈ provs, p.alternatives.length ≠ 1) →
      processProvides dp idx provs = none
  | [], idx, h => by simp at h
  | q :: rest, idx, h => by
    rcases hq : q.alternatives with _ | ⟨d, _ | ⟨d2, tl⟩⟩
    · simp [processProvides, hq]
    · obtain ⟨p, hp, hlen⟩ := h
      rcases List.mem_cons.mp hp with hp1 | hp1
      · subst hp1
        rw [hq] at hlen
        simp at hlen
      · simp only [processProvides, hq]
        exact processProvides_none dp rest _ ⟨p, hp1, hlen⟩
    · simp [processProvides, hq]

theorem create_step_none {dp : DebianPackage}
    (h : ∃ prov ∈ dp.provides, 1 < prov.alternatives.length) (idx : Index) :
    processProvides dp idx (convert_dependency_field dp.provides) = none := by
  obtain ⟨prov, hmem, hlen⟩ := h
  refine processProvides_none dp _ idx ⟨convert_dependency prov, ?_, ?_⟩
  · exact List.mem_map_of_mem convert_dependency hmem
  · simp [convert_dependency]
    omega

theorem create_fold_none {dp : DebianPackage}
    (h : ∃ prov ∈ dp.provides, 1 < prov.alternatives.length) :
    ∀ (pkgs : List DebianPackage) (idx : Index), dp ∈ pkgs →
      List.foldlM (fun idx dp =>
        processProvides dp
          (idx.add_deps dp.package ⟨dp.version⟩ (convert_dependency_field dp.depends))
          (convert_dependency_field dp.provides)) idx pkgs = none
  | [], idx, hmem => by simp at hmem
  | q :: rest, idx, hmem => by
    simp only [List.foldlM]
    rcases List.mem_cons.mp hmem with hq | hq
    · subst hq
      rw [create_step_none h]
      rfl
    · cases hstep : processProvides q
        (idx.add_deps q.package ⟨q.version⟩ (convert_dependency_field q.depends))
        (convert_dependency_field q.provides) with
      | none => rfl
      | some idx2 => simpa using create_fold_none h rest idx2 hq

/-- C8: during index construction a `provides` entry with more than one
alternative aborts construction, while a single-alternative `provides`
registers, under the provided name, the providing package pinned to the
provider's exact version by a singleton range. -/
theorem create_index_provides_spec :
    (∀ (pkgs : List DebianPackage) (dp : DebianPackage) (prov : Parse.Dependency),
      dp ∈ pkgs → prov ∈ dp.provides → 1 < prov.alternatives.length →
      create_index_from pkgs = none) ∧
    (∀ (dp : DebianPackage) (d : Parse.Dependency) (a : Parse.Alternative),
      dp.provides = [d] → d.alternatives = [a] → a.package ≠ dp.package →
      ∃ idx, create_index_from [dp] = some idx ∧
        pkgLookup idx.packages a.package =
          some [(⟨dp.package⟩,
            [⟨[⟨dp.package, ⟨VersionRange.singleton ⟨dp.version⟩⟩⟩]⟩])]) := by
  constructor
  · intro pkgs dp prov hdp hprov hlen
    exact create_fold_none ⟨prov, hprov, hlen⟩ pkgs Index.new hdp
  · intro dp d a hprov halts hne
    have hne2 : ¬(dp.package = a.package) := fun hh => hne hh.symm
    refine ⟨Index.mk [(dp.package, [(⟨dp.version⟩, convert_dependency_field dp.depends)]),
      (a.package, [(⟨dp.package⟩,
        [⟨[⟨dp.package, ⟨VersionRange.singleton ⟨dp.version⟩⟩⟩]⟩])])], ?_, ?_⟩
    · simp [create_index_from, List.foldlM, hprov, convert_dependency_field,
        convert_dependency, halts, convert_alternative, processProvides,
        Index.add_deps, Index.new, addDepsAux, btreeInsert, hne2]
    · simp [pkgLookup, hne2]

/-- Witness for C8: a two-alternative `provides` aborts construction, and a
single-alternative `provides` registers the provider pinned at its version. -/
theorem create_index_provides_spec_witness :
    create_index_from [⟨"p", "1.0", [],
      [⟨[⟨"v1", none, none⟩, ⟨"v2", none, none⟩]⟩]⟩] = none ∧
    ∃ idx, create_index_from [⟨"p", "1.0", [], [⟨[⟨"virt", none, none⟩]⟩]⟩] = some idx ∧
      pkgLookup idx.packages "virt" =
        some [(⟨"p"⟩, [⟨[⟨"p", ⟨VersionRange.singleton ⟨"1.0"⟩⟩⟩]⟩])] := by
  constructor
  · exact create_index_provides_spec.1 _
      ⟨"p", "1.0", [], [⟨[⟨"v1", none, none⟩, ⟨"v2", none, none⟩]⟩]⟩
      ⟨[⟨"v1", none, none⟩, ⟨"v2", none, none⟩]⟩
      (by simp) (by simp) (by decide)
  · exact create_index_provides_spec.2
      ⟨"p", "1.0", [], [⟨[⟨"virt", none, none⟩]⟩]⟩
      ⟨[⟨"virt", none, none⟩]⟩ ⟨"virt", none, none⟩ rfl rfl (by decide)

theorem dropWhile_eq_self_of_head {p : Char → Bool} {l : List Char}
    (h : headSat p l = false) : l.dropWhile p = l := by
  cases l with
  | nil => rfl
  | cons c t =>
    simp only [headSat] at h
    simp [List.dropWhile, h]

theorem trimChars_eq_self {l : List Char} (h1 : headSat Char.isWhitespace l = false)
    (h2 : headSat Char.isWhitespace l.reverse = false) : trimChars l = l := by
  unfold trimChars
  rw [dropWhile_eq_self_of_head h1, dropWhile_eq_self_of_head h2, List.reverse_reverse]

theorem headSat_append_of_ne_nil (p : Char → Bool) {l1 : List Char} (l2 : List Char)
    (h : l1 ≠ []) : headSat p (l1 ++ l2) = headSat p l1 := by
  cases l1 with
  | nil => exact absurd rfl h
  | cons c t => rfl

theorem mem_first_split : ∀ {l : List Char} {c : Char}, c ∈ l →
    ∃ pre suf, l = pre ++ c :: suf ∧ c ∉ pre
  | [], c, h => absurd h (List.not_mem_nil c)
  | a :: l, c, h => by
    by_cases hac : a = c
    · exact ⟨[], l, by simp [hac], by simp⟩
    · have hmem : c ∈ l := by
        rcases List.mem_cons.mp h with h1 | h1
        · exact absurd h1.symm hac
        · exact h1
      obtain ⟨pre, suf, hl, hp⟩ := mem_first_split hmem
      refine ⟨a :: pre, suf, by simp [hl], ?_⟩
      intro hc2
      rcases List.mem_cons.mp hc2 with h1 | h1
      · exact hac h1.symm
      · exact hp h1

theorem splitChars_prepend_zero {s : List Char}
    (h1 : headSat Char.isWhitespace s = false)
    (h2 : headSat Char.isWhitespace s.reverse = false)
    (hc : ':' ∉ s) :
    splitChars ('0' :: ':' :: s) = splitChars s := by
  have hts : trimChars s = s := trimChars_eq_self h1 h2
  have httrim : trimChars ('0' :: ':' :: s) = '0' :: ':' :: s := by
    apply trimChars_eq_self
    · rfl
    · have hrev : ('0' :: ':' :: s).reverse = s.reverse ++ [':', '0'] := by simp
      rw [hrev]
      by_cases hs : s = []
      · subst hs; rfl
      · rw [headSat_append_of_ne_nil _ _ (by simpa using hs)]
        exact h2
  have htpre : trimChars ('0' :: ':' :: s) = ['0'] ++ ':' :: s := httrim
  have hpre : ':' ∉ (['0'] : List Char) := by decide
  by_cases hh : '-' ∈ s
  · have hhrev : '-' ∈ s.reverse := by simpa using hh
    obtain ⟨p1, p2, hr, hp1⟩ := mem_first_split hhrev
    have hsdec : s = p2.reverse ++ '-' :: p1.reverse := by
      have := congrArg List.reverse hr
      simpa using this
    have hnot : '-' ∉ p1.reverse := by simpa using hp1
    have e1 : splitChars s = (0, p2.reverse, p1.reverse) :=
      splitChars_no_colon_hyphen p2.reverse p1.reverse (hts.trans hsdec)
        (by rw [hts]; exact hc) hnot
    have e2 : splitChars ('0' :: ':' :: s) = (parseU64 ['0'], p2.reverse, p1.reverse) :=
      splitChars_colon_hyphen ['0'] s p2.reverse p1.reverse htpre hpre hsdec hnot
    rw [e1, e2]
    rfl
  · have e1 : splitChars s = (0, s, ['0']) :=
      (splitChars_no_colon_no_hyphen (by rw [hts]; exact hc)
        (by rw [hts]; exact hh)).trans (by rw [hts])
    have e2 : splitChars ('0' :: ':' :: s) = (parseU64 ['0'], s, ['0']) :=
      splitChars_colon_no_hyphen ['0'] s htpre hpre hh
    rw [e1, e2]
    rfl

theorem splitChars_append_dash_zero {s : List Char}
    (h1 : headSat Char.isWhitespace s = false)
    (h2 : headSat Char.isWhitespace s.reverse = false)
    (hh : '-' ∉ s) :
    splitChars (s ++ ['-', '0']) = splitChars s := by
  have hts : trimChars s = s := trimChars_eq_self h1 h2
  have httrim : trimChars (s ++ ['-', '0']) = s ++ ['-', '0'] := by
    apply trimChars_eq_self
    · by_cases hs : s = []
      · subst hs; rfl
      · rw [headSat_append_of_ne_nil _ _ hs]
        exact h1
    · have hrev : (s ++ ['-', '0']).reverse = '0' :: '-' :: s.reverse := by simp
      rw [hrev]
      rfl
  by_cases hc : ':' ∈ s
  · obtain ⟨pre, rest, hsplit, hpre⟩ := mem_first_split hc
    have hhr : '-' ∉ rest := fun hmem => hh (by rw [hsplit]; simp [hmem])
    have e1 : splitChars s = (parseU64 pre, rest, ['0']) :=
      splitChars_colon_no_hyphen pre rest (hts.trans hsplit) hpre hhr
    have hsplit2 : trimChars (s ++ ['-', '0']) = pre ++ ':' :: (rest ++ ['-', '0']) := by
      rw [httrim, hsplit]
      simp
    have e2 : splitChars (s ++ ['-', '0']) = (parseU64 pre, rest, ['0']) :=
      splitChars_colon_hyphen pre (rest ++ ['-', '0']) rest ['0'] hsplit2 hpre rfl
        (by decide)
    rw [e1, e2]
  · have hc2 : ':' ∉ s ++ ['-', '0'] := by
      simp [List.mem_append, hc]
    have e1 : splitChars s = (0, s, ['0']) :=
      (splitChars_no_colon_no_hyphen (by rw [hts]; exact hc)
        (by rw [hts]; exact hh)).trans (by rw [hts])
    have e2 : splitChars (s ++ ['-', '0']) = (0, s, ['0']) :=
      splitChars_no_colon_hyphen s ['0'] httrim (by rw [httrim]; exact hc2) (by decide)
    rw [e1, e2]

theorem vcmp_prepend_zero {s : List Char}
    (h1 : headSat Char.isWhitespace s = false)
    (h2 : headSat Char.isWhitespace s.reverse = false)
    (hc : ':' ∉ s) : vcmp ('0' :: ':' :: s) s = .eq := by
  rw [vcmp_eq_keyCmp]
  have hk : vkey ('0' :: ':' :: s) = vkey s := by
    unfold vkey
    rw [splitChars_prepend_zero h1 h2 hc]
  rw [hk]
  exact keyCmp_refl _

theorem vcmp_append_dash_zero {s : List Char}
    (h1 : headSat Char.isWhitespace s = false)
    (h2 : headSat Char.isWhitespace s.reverse = false)
    (hh : '-' ∉ s) : vcmp (s ++ ['-', '0']) s = .eq := by
  rw [vcmp_eq_keyCmp]
  have hk : vkey (s ++ ['-', '0']) = vkey s := by
    unfold vkey
    rw [splitChars_append_dash_zero h1 h2 hh]
  rw [hk]
  exact keyCmp_refl _

/-- C7 fails as literally stated: for the version string `"1-2 "` (trailing
space) the substring after the last `-` of the string is `"2 "`, but `split`
trims whitespace first and returns revision `"2"`. -/
theorem split_claim_counterexample :
    ("1-2 " : String).data = ['1', '-', '2', ' '] ∧
    (DebianVersion.split ⟨"1-2 "⟩).2.2 = ['2'] ∧
    (DebianVersion.split ⟨"1-2 "⟩).2.2 ≠ ['2', ' '] := by
  decide

/-- C7 (amended): splitting first trims surrounding whitespace; on the
trimmed string the epoch is the part before the first `:` parsed as an
unsigned integer, defaulting to 0 when no `:` is present, and the revision
is the substring after the last `-` of the remainder, defaulting to `"0"`
when no `-` is present; every string is accepted (split is total, defined
on all of `String`). -/
theorem split_characterization (s : String) :
    ((':' ∉ trimChars s.data ∧ '-' ∉ trimChars s.data) →
      DebianVersion.split ⟨s⟩ = (0, trimChars s.data, ['0'])) ∧
    (∀ pre rest, trimChars s.data = pre ++ ':' :: rest → ':' ∉ pre → '-' ∉ rest →
      DebianVersion.split ⟨s⟩ = (parseU64 pre, rest, ['0'])) ∧
    (∀ up rev, trimChars s.data = up ++ '-' :: rev → ':' ∉ trimChars s.data →
      '-' ∉ rev → DebianVersion.split ⟨s⟩ = (0, up, rev)) ∧
    (∀ pre rest up rev, trimChars s.data = pre ++ ':' :: rest → ':' ∉ pre →
      rest = up ++ '-' :: rev → '-' ∉ rev →
      DebianVersion.split ⟨s⟩ = (parseU64 pre, up, rev)) := by
  refine ⟨fun h => splitChars_no_colon_no_hyphen h.1 h.2,
    fun pre rest h1 h2 h3 => splitChars_colon_no_hyphen pre rest h1 h2 h3,
    fun up rev h1 h2 h3 => splitChars_no_colon_hyphen up rev h1 h2 h3,
    fun pre rest up rev h1 h2 h3 h4 => splitChars_colon_hyphen pre rest up rev h1 h2 h3 h4⟩

/-- Witness for the amended C7 at `"1:2.0-3"`: epoch 1, upstream `"2.0"`,
revision `"3"`. -/
theorem split_characterization_witness :
    DebianVersion.split ⟨"1:2.0-3"⟩ = (1, ['2', '.', '0'], ['3']) := by
  have h := (split_characterization "1:2.0-3").2.2.2 ['1'] ['2', '.', '0', '-', '3']
    ['2', '.', '0'] ['3'] (by decide) (by decide) (by decide) (by decide)
  exact h.trans (by decide)

/-- C10 fails as literally stated: `" 1"` contains no `:`, yet prepending
`"0:"` does not give a comparison-equal version, because trimming makes the
two sides tokenize differently. -/
theorem cmp_equal_claim_counterexample :
    ':' ∉ (" 1" : String).data ∧
    DebianVersion.cmp ⟨"0:" ++ " 1"⟩ ⟨" 1"⟩ ≠ .eq := by
  decide

/-- C10 (amended): for strings that neither start nor end with whitespace,
prepending an explicit zero epoch (when the string has no `:`) or appending
the `-0` default revision (when it has no `-`) gives a comparison-equal
version; hence `compare` returning `Equal` does not imply string equality;
and inserting two comparison-equal versions of one package stores a single
catalog entry whose key is the first version and whose dependency list is
the second call's. -/
theorem cmp_equal_not_eq_amended :
    (∀ s : String, headSat Char.isWhitespace s.data = false →
      headSat Char.isWhitespace s.data.reverse = false → ':' ∉ s.data →
      DebianVersion.cmp ⟨"0:" ++ s⟩ ⟨s⟩ = .eq) ∧
    (∀ s : String, headSat Char.isWhitespace s.data = false →
      headSat Char.isWhitespace s.data.reverse = false → '-' ∉ s.data →
      DebianVersion.cmp ⟨s ++ "-0"⟩ ⟨s⟩ = .eq) ∧
    (∃ a b : DebianVersion, a.cmp b = .eq ∧ a ≠ b) ∧
    (∀ (name : String) (v1 v2 : DebianVersion) (d1 d2 : List Idx.Dependency),
      v1.cmp v2 = .eq →
      (Index.new.add_deps name v1 d1).add_deps name v2 d2 =
        ⟨[(name, [(v1, d2)])]⟩) := by
  refine ⟨?_, ?_, ⟨⟨"0:1"⟩, ⟨"1"⟩, by decide, by decide⟩, ?_⟩
  · intro s h1 h2 hc
    have hdata : ("0:" ++ s).data = '0' :: ':' :: s.data := by
      rw [String.data_append]
      rfl
    show vcmp ("0:" ++ s).data s.data = .eq
    rw [hdata]
    exact vcmp_prepend_zero h1 h2 hc
  · intro s h1 h2 hh
    have hdata : (s ++ "-0").data = s.data ++ ['-', '0'] := by
      rw [String.data_append]
    show vcmp (s ++ "-0").data s.data = .eq
    rw [hdata]
    exact vcmp_append_dash_zero h1 h2 hh
  · intro name v1 v2 d1 d2 h
    have h2 : v2.cmp v1 = .eq := by rw [debCmp_swap, h]; rfl
    simp [Index.add_deps, Index.new, addDepsAux, btreeInsert, h2]

/-- Witness for the amended C10 at concrete inputs. -/
theorem cmp_equal_not_eq_amended_witness :
    DebianVersion.cmp ⟨"0:" ++ "1"⟩ ⟨"1"⟩ = .eq ∧
    DebianVersion.cmp ⟨"1" ++ "-0"⟩ ⟨"1"⟩ = .eq ∧
    (Index.new.add_deps "p" ⟨"0:1"⟩ []).add_deps "p" ⟨"1"⟩ [⟨[]⟩] =
      ⟨[("p", [(⟨"0:1"⟩, [⟨[]⟩])])]⟩ :=
  ⟨cmp_equal_not_eq_amended.1 "1" (by decide) (by decide) (by decide),
    cmp_equal_not_eq_amended.2.1 "1" (by decide) (by decide) (by decide),
    cmp_equal_not_eq_amended.2.2.2 "p" ⟨"0:1"⟩ ⟨"1"⟩ [] [⟨[]⟩] (by decide)⟩

/-- Witness for C9 at concrete versions. -/
theorem version_constraint_to_range_spec_witness :
    (version_constraint_to_range .laterOrEqual ⟨"1.0"⟩).contains ⟨"1.0"⟩ = true ∧
    (version_constraint_to_range .strictlyLater ⟨"1.0"⟩).contains ⟨"1.0"⟩ = false ∧
    (version_constraint_to_range .exactlyEqual ⟨"1.0"⟩).contains ⟨"0:1.0"⟩ = true :=
  ⟨version_constraint_to_range_spec.2.1 ⟨"1.0"⟩,
    version_constraint_to_range_spec.2.2 ⟨"1.0"⟩,
    (version_constraint_to_range_spec.1 ⟨"1.0"⟩ ⟨"0:1.0"⟩).2.2.2.2.mpr (by decide)⟩
